import Mathlib

/-!
Shallow embedding of the `systemd-unit-rs` library (src/lib.rs, src/parser.rs,
src/quoted.rs, src/split.rs, src/value.rs) and proofs about its specification.

Conventions of the embedding:
* Strings are handled through their character lists (`String.data`); the
  char-level scanners of the source are rendered as recursive functions on
  `List Char`.
* `ListOrderedMultimap` (crate `ordered_multimap`) is rendered as an
  association list of pairs in insertion order; `get`/`entry` address the
  first pair with the given key, `append` adds a pair at the end,
  `remove_all` removes all pairs with the key (preserving the order of the
  rest) and yields the removed values in order, and iteration is in pair
  insertion order.  This matches the crate's documented behaviour.
* Loops whose per-iteration consumption is not a single character take a
  fuel argument; every iteration consumes at least one input character, so
  the wrappers pass `input.length + 1` fuel, which can never be exhausted.
  The fuel-0 branches are therefore unreachable from the wrappers.
* `Iterator::next` returning `None` ends an iteration (Rust `for`-loop
  semantics); the tokenizer drivers below stop at the first `none`.
* Error positions (line/column of `ParseError`) are not modelled: no claim
  depends on them, and they do not influence acceptance or document content.
  Error message texts are kept close to the source but are not part of any
  claim; `Error::Gid`/`Error::Uid` (OS identity lookups) are out of scope.
-/

deriving instance DecidableEq for Except

/-- lib.rs `Error` (the variants relevant to the core; `Unit` carries the
parse error's message). -/
inductive Error where
  | ParseBool : Error
  | Unquoting : String → Error
  | Unit : String → Error
deriving DecidableEq, Repr

/-- value.rs `EntryValue`: the pair of the raw (escaped) literal and the
cached unquoted (logical) string. -/
structure EntryValue where
  raw : String
  unquoted : String
deriving DecidableEq, Repr

/-! ## quoted.rs — the escape/quote engine -/

/-- Rust `char::is_ascii_control`. -/
def is_ascii_control (c : Char) : Bool :=
  c.toNat ≤ 0x7f && (c.toNat < 0x20 || c.toNat == 0x7f)

/-- Rust `char::is_ascii_whitespace` (space, tab, newline, form feed,
carriage return). -/
def is_ascii_whitespace (c : Char) : Bool :=
  c = ' ' || c = '\t' || c = '\n' || c = '\x0c' || c = '\r'

/-- quoted.rs `char_needs_escaping`. -/
def char_needs_escaping (c : Char) : Bool :=
  if 128 < c.toNat then false
  else is_ascii_control c || is_ascii_whitespace c || c = '"' || c = '\'' || c = '\\'

/-- Lowercase hex digit, as produced by Rust's `format ... :02x` for the
code points (all below 0x80) that reach the fallback arm of `quote_value`. -/
def lowerHexDigit (n : Nat) : Char :=
  if n < 10 then Char.ofNat (48 + n) else Char.ofNat (87 + n)

/-- quoted.rs `quote_value`, one character: the list of characters pushed
onto the escaped string for `c` (the `match` arms in source order). -/
def quoteChar (c : Char) : List Char :=
  if !char_needs_escaping c then [c]
  else if c = '\x07' then ['\\', 'a']
  else if c = '\x08' then ['\\', 'b']
  else if c = '\n' then ['\\', 'n']
  else if c = '\r' then ['\\', 'r']
  else if c = '\t' then ['\\', 't']
  else if c = '\x0b' then ['\\', 'v']
  else if c = '\x0c' then ['\\', 'f']
  else if c = '\\' then ['\\', '\\']
  else if c = ' ' then [' ']
  else if c = '"' then ['\\', '"']
  else if c = '\'' then ['\'']
  else ['\\', 'x', lowerHexDigit (c.toNat / 16), lowerHexDigit (c.toNat % 16)]

/-- quoted.rs `quote_value` on a character list. -/
def quoteChars (s : List Char) : List Char :=
  (s.map quoteChar).flatten

/-- quoted.rs `quote_value`. -/
def quote_value (value : String) : String :=
  String.mk (quoteChars value.data)

/-- Rust `char::is_ascii_hexdigit`. -/
def is_ascii_hexdigit (c : Char) : Bool :=
  c.isDigit || ('a' ≤ c && c ≤ 'f') || ('A' ≤ c && c ≤ 'F')

/-- Value of a (validated) hex/octal digit, as `u32::from_str_radix`
assigns it. -/
def hexDigitVal (c : Char) : Nat :=
  if c.isDigit then c.toNat - 48
  else if 'a' ≤ c then c.toNat - 87
  else c.toNat - 55

/-- `u32::from_str_radix code radix` on an already-validated digit string. -/
def codeVal (radix : Nat) (code : List Char) : Nat :=
  code.foldl (fun a c => a * radix + hexDigitVal c) 0

/-- `char::try_from : u32 → Result` succeeds exactly on Unicode scalar
values. -/
def isUnicodeScalar (n : Nat) : Bool :=
  n < 0xd800 || (0xdfff < n && n < 0x110000)

/-- quoted.rs `Quoted::parse_escape_sequence`'s helper
`parse_unicode_escape`: consume `maxChars` digits of the given radix from
the input, validating each, then turn the accumulated code into a
character.  Returns the character and the input after the digits. -/
def parse_unicode_escape_go (radix : Nat) : Nat → List Char → List Char → Except Error (Char × List Char)
  | 0, input, code =>
      let ucp := codeVal radix code
      if ucp = 0 then .error (.Unquoting "\\0 character not allowed in escape sequence")
      else if isUnicodeScalar ucp then .ok (Char.ofNat ucp, input)
      else .error (.Unquoting "invalid unicode character in escape sequence")
  | _ + 1, [], _ => .error (.Unquoting "expecting unicode escape sequence, but found EOF.")
  | k + 1, c :: rest, code =>
      if radix = 16 ∧ ¬ is_ascii_hexdigit c then
        .error (.Unquoting ("expected hex values, but got " ++ String.mk (code ++ [c])))
      else if radix = 8 ∧ (¬ c.isDigit ∨ c = '8' ∨ c = '9') then
        .error (.Unquoting ("expected octal values, but got " ++ String.mk (code ++ [c])))
      else parse_unicode_escape_go radix k rest (code ++ [c])

/-- quoted.rs `Quoted::parse_unicode_escape`. -/
def parse_unicode_escape (radix maxChars : Nat) (input : List Char) : Except Error (Char × List Char) :=
  parse_unicode_escape_go radix maxChars input []

/-- quoted.rs `Quoted::parse_escape_sequence`: `c` is the character after
the backslash, `rest` the input after `c`.  Returns the decoded character
and the remaining input. -/
def parse_escape_sequence (c : Char) (rest : List Char) : Except Error (Char × List Char) :=
  if c = 'a' then .ok ('\x07', rest)
  else if c = 'b' then .ok ('\x08', rest)
  else if c = 'f' then .ok ('\x0c', rest)
  else if c = 'n' then .ok ('\n', rest)
  else if c = 'r' then .ok ('\r', rest)
  else if c = 't' then .ok ('\t', rest)
  else if c = 'v' then .ok ('\x0b', rest)
  else if c = '\\' then .ok ('\\', rest)
  else if c = '"' then .ok ('"', rest)
  else if c = '\'' then .ok ('\'', rest)
  else if c = 's' then .ok (' ', rest)
  else if c = 'x' then parse_unicode_escape 16 2 rest
  else if c = 'u' then parse_unicode_escape 16 4 rest
  else if c = 'U' then parse_unicode_escape 16 8 rest
  else if '0' ≤ c ∧ c ≤ '7' then parse_unicode_escape 8 3 (c :: rest)
  else .error (.Unquoting ("expecting escape sequence, but found " ++ String.mk [c]))

/-- Whether the previous character (none for start of output) makes a quote
character act as a quote opener in `parse_and_unquote`. -/
def wsOrStart : Option Char → Bool
  | none => true
  | some p => p = ' ' || p = '\t' || p = '\n'

/-- The guard of `parse_and_unquote`'s quote arm:
`result.ends_with &#91;' ', '\t', '\n'&#93; || result.is_empty()`. -/
def quoteOpenerPos (acc : List Char) : Bool :=
  wsOrStart acc.getLast?

/-- quoted.rs `Quoted::parse_and_unquote`: the scanning loop over the
literal, carrying the decoded result and the current quote state.  Every
iteration consumes at least one character, so fuel `input.length + 1`
(supplied by `unquote_value`) cannot run out; the fuel-0 branch is
unreachable from the wrapper. -/
def unquoteLoop : Nat → List Char → List Char → Option Char → Except Error (List Char)
  | 0, _, _, _ => .error (.Unquoting "")
  | _ + 1, [], acc, _ => .ok acc
  | fuel + 1, c :: rest, acc, q =>
    if (c = '\'' ∨ c = '"') ∧ quoteOpenerPos acc then
      unquoteLoop fuel rest acc (some c)
    else if c = '\\' then
      match rest with
      | [] => .error (.Unquoting "expecting escape sequence, but found EOF.")
      | e :: rest2 =>
        match parse_escape_sequence e rest2 with
        | .error er => .error er
        | .ok (ch, rest3) => unquoteLoop fuel rest3 (acc ++ [ch]) q
    else if some c = q then
      unquoteLoop fuel rest acc none
    else
      unquoteLoop fuel rest (acc ++ [c]) q

/-- quoted.rs `unquote_value`. -/
def unquote_value (raw : String) : Except Error String :=
  (unquoteLoop (raw.data.length + 1) raw.data [] none).map String.mk

/-! ## value.rs — the value abstraction -/

/-- value.rs `EntryValue::from_unquoted`. -/
def EntryValue.from_unquoted (unquoted : String) : EntryValue :=
  { raw := quote_value unquoted, unquoted := unquoted }

/-- value.rs `EntryValue::try_from_raw`. -/
def EntryValue.try_from_raw (raw : String) : Except Error EntryValue :=
  (unquote_value raw).map fun u => { raw := raw, unquoted := u }

/-- lib.rs `parse_bool`. -/
def parse_bool (s : String) : Except Error Bool :=
  if s = "1" ∨ s = "yes" ∨ s = "true" ∨ s = "on" then .ok true
  else if s = "0" ∨ s = "no" ∨ s = "false" ∨ s = "off" then .ok false
  else .error .ParseBool

/-- Rust `char::is_whitespace`: the Unicode `White_Space` property (this is
what `str::trim` strips). -/
def isRustWhitespace (c : Char) : Bool :=
  (0x9 ≤ c.toNat && c.toNat ≤ 0xd) || c = ' ' || c.toNat = 0x85 || c.toNat = 0xa0 ||
  c.toNat = 0x1680 || (0x2000 ≤ c.toNat && c.toNat ≤ 0x200a) ||
  c.toNat = 0x2028 || c.toNat = 0x2029 || c.toNat = 0x202f ||
  c.toNat = 0x205f || c.toNat = 0x3000

/-- Rust `str::trim` (strip Unicode whitespace from both ends). -/
def rustTrim (s : String) : String :=
  String.mk (((s.data.dropWhile isRustWhitespace).reverse.dropWhile isRustWhitespace).reverse)

/-- value.rs `EntryValue::to_bool`. -/
def EntryValue.to_bool (v : EntryValue) : Except Error Bool :=
  let trimmed := rustTrim v.raw
  if trimmed = "" then .ok false
  else parse_bool trimmed

/-! ## split.rs — the word tokenizers -/

/-- split.rs `WHITESPACE`. -/
def WHITESPACE : List Char := [' ', '\t', '\n', '\r']

/-- split.rs / parser.rs `parse_until_any_of`: the consumed prefix (chars
before the first occurrence of a character in `ends`) and the rest of the
input (starting with that character, if any). -/
def parseUntilAnyOf (ends : List Char) : List Char → List Char × List Char
  | [] => ([], [])
  | c :: rest =>
    if c ∈ ends then ([], c :: rest)
    else
      let (s, r) := parseUntilAnyOf ends rest
      (c :: s, r)

/-- split.rs / parser.rs `parse_until_none_of`: the consumed prefix of
characters in `ends` and the rest of the input. -/
def parseUntilNoneOf (ends : List Char) : List Char → List Char × List Char
  | [] => ([], [])
  | c :: rest =>
    if c ∉ ends then ([], c :: rest)
    else
      let (s, r) := parseUntilNoneOf ends rest
      (c :: s, r)

/-- split.rs `SplitStrv::next`'s scanning loop: carries the word so far and
the quote state; returns the word and the remaining input (the separator,
if one stopped the word, is left in place). -/
def splitStrvLoop : List Char → List Char → Option Char → List Char × List Char
  | [], word, _ => (word, [])
  | c :: rest, word, some q =>
    if c = q then splitStrvLoop rest word none
    else splitStrvLoop rest (word ++ [c]) (some q)
  | c :: rest, word, none =>
    if c = '\'' ∨ c = '"' then splitStrvLoop rest word (some c)
    else if c ∈ WHITESPACE then (word, c :: rest)
    else splitStrvLoop rest (word ++ [c]) none

/-- The epilogue of both tokenizers' `next`: an empty word is suppressed
(`if word.is_empty() then None else Some(word)`). -/
def finishWord (word rest : List Char) : Option (List Char × List Char) :=
  if word.isEmpty then none else some (word, rest)

/-- split.rs `SplitStrv::next`: skip leading whitespace, scan a word, and
yield it unless it is empty. -/
def splitStrvNext (input : List Char) : Option (List Char × List Char) :=
  let r := (parseUntilNoneOf WHITESPACE input).2
  let wr := splitStrvLoop r [] none
  finishWord wr.1 wr.2

/-- split.rs `SplitWord::parse_unicode_escape` (same digit grammar as the
one in quoted.rs, but failing with a plain message string). -/
def split_parse_unicode_escape_go (radix : Nat) : Nat → List Char → List Char → Except String (Char × List Char)
  | 0, input, code =>
      let ucp := codeVal radix code
      if ucp = 0 then .error "\\0 character not allowed in escape sequence"
      else if isUnicodeScalar ucp then .ok (Char.ofNat ucp, input)
      else .error "invalid unicode character in escape sequence"
  | _ + 1, [], _ => .error "expecting unicode escape sequence, but found EOF."
  | k + 1, c :: rest, code =>
      if radix = 16 ∧ ¬ is_ascii_hexdigit c then
        .error ("Expected hex values, but got " ++ String.mk (code ++ [c]))
      else if radix = 8 ∧ (¬ c.isDigit ∨ c = '8' ∨ c = '9') then
        .error ("Expected octal values, but got " ++ String.mk (code ++ [c]))
      else split_parse_unicode_escape_go radix k rest (code ++ [c])

/-- split.rs `SplitWord::parse_unicode_escape`. -/
def split_parse_unicode_escape (radix maxChars : Nat) (input : List Char) : Except String (Char × List Char) :=
  split_parse_unicode_escape_go radix maxChars input []

/-- split.rs `SplitWord::parse_escape_sequence`: like the quoted.rs one,
except that an unknown escape character is passed through as itself. -/
def split_parse_escape_sequence (c : Char) (rest : List Char) : Except String (Char × List Char) :=
  if c = 'a' then .ok ('\x07', rest)
  else if c = 'b' then .ok ('\x08', rest)
  else if c = 'f' then .ok ('\x0c', rest)
  else if c = 'n' then .ok ('\n', rest)
  else if c = 'r' then .ok ('\r', rest)
  else if c = 't' then .ok ('\t', rest)
  else if c = 'v' then .ok ('\x0b', rest)
  else if c = '\\' then .ok ('\\', rest)
  else if c = '"' then .ok ('"', rest)
  else if c = '\'' then .ok ('\'', rest)
  else if c = 's' then .ok (' ', rest)
  else if c = 'x' then split_parse_unicode_escape 16 2 rest
  else if c = 'u' then split_parse_unicode_escape 16 4 rest
  else if c = 'U' then split_parse_unicode_escape 16 8 rest
  else if '0' ≤ c ∧ c ≤ '7' then split_parse_unicode_escape 8 3 (c :: rest)
  else .ok (c, rest)

/-- split.rs `SplitWord::next`'s scanning loop, carrying the word so far,
the quote state, and the pending-backslash flag.  A malformed escape
sequence makes the whole call return `none` (`Err(_) => return None` in the
source).  Every iteration consumes at least one character, so the fuel
`input.length + 1` passed by `splitWordNext` cannot run out. -/
def splitWordLoop : Nat → List Char → List Char → Option Char → Bool → Option (List Char × List Char)
  | 0, _, _, _, _ => none
  | _ + 1, [], word, _, _ => finishWord word []
  | fuel + 1, c :: rest, word, quote, backslash =>
    if backslash then
      match split_parse_escape_sequence c rest with
      | .error _ => none
      | .ok (r, rest2) => splitWordLoop fuel rest2 (word ++ [r]) quote false
    else
      match quote with
      | some q =>
        let (chunk, r) := parseUntilAnyOf [q, '\\'] (c :: rest)
        match r with
        | [] => finishWord (word ++ chunk) []
        | e :: r2 =>
          if e = q then splitWordLoop fuel r2 (word ++ chunk) none false
          else splitWordLoop fuel r2 (word ++ chunk) quote true
      | none =>
        if c = '\'' ∨ c = '"' then splitWordLoop fuel rest word (some c) false
        else if c = '\\' then splitWordLoop fuel rest word none true
        else if c ∈ WHITESPACE then finishWord word (c :: rest)
        else splitWordLoop fuel rest (word ++ [c]) none false

/-- split.rs `SplitWord::next`. -/
def splitWordNext (input : List Char) : Option (List Char × List Char) :=
  let r := (parseUntilNoneOf WHITESPACE input).2
  splitWordLoop (r.length + 1) r [] none false

/-- Driving a tokenizer as Rust iteration does: repeatedly call `next`,
collecting words, and stop at the first `none`.  Each successful `next`
consumes at least one character, so fuel `input.length + 1` suffices. -/
def tokenizeLoop (next : List Char → Option (List Char × List Char)) : Nat → List Char → List String
  | 0, _ => []
  | fuel + 1, input =>
    match next input with
    | none => []
    | some (w, rest) => String.mk w :: tokenizeLoop next fuel rest

/-- All words `SplitStrv` yields on the input, in order. -/
def tokenizeStrv (s : String) : List String :=
  tokenizeLoop splitStrvNext (s.data.length + 1) s.data

/-- All words `SplitWord` yields on the input, in order. -/
def tokenizeWords (s : String) : List String :=
  tokenizeLoop splitWordNext (s.data.length + 1) s.data

/-! ## lib.rs — the document model -/

/-- lib.rs `SystemdUnit`: the ordered sections, each an ordered list of
`key = value` pairs in pair insertion order (the `path` field is provenance
only and not modelled). -/
abbrev Doc := List (String × List (String × EntryValue))

/-- `ListOrderedMultimap::get` + `unwrap_or_default`: the entry list of the
first section with the given name, or the empty sentinel. -/
def getSection (d : Doc) (name : String) : List (String × EntryValue) :=
  match d with
  | [] => []
  | (s, es) :: rest => if s = name then es else getSection rest name

/-- lib.rs `SystemdUnit::has_section` (`self.sections.contains_key`). -/
def has_section (d : Doc) (name : String) : Bool :=
  match d with
  | [] => false
  | (s, _) :: rest => s = name || has_section rest name

/-- lib.rs `SystemdUnit::has_key`. -/
def has_key (d : Doc) (sec key : String) : Bool :=
  (getSection d sec).any (fun kv => kv.1 = key)

/-- lib.rs `SystemdUnit::append_entry_value`
(`entry(section).or_insert_entry(default).data.append(key, value)`). -/
def append_entry_value : Doc → String → String → EntryValue → Doc
  | [], sec, key, value => [(sec, [(key, value)])]
  | (s, es) :: rest, sec, key, value =>
    if s = sec then (s, es ++ [(key, value)]) :: rest
    else (s, es) :: append_entry_value rest sec key value

/-- lib.rs `SystemdUnit::append_entry`. -/
def append_entry (d : Doc) (sec key value : String) : Doc :=
  append_entry_value d sec key (EntryValue.from_unquoted value)

/-- lib.rs `SystemdUnit::lookup_all_values`. -/
def lookup_all_values (d : Doc) (sec key : String) : List EntryValue :=
  ((getSection d sec).filter (fun kv => kv.1 = key)).map (fun kv => kv.2)

/-- lib.rs `SystemdUnit::lookup_all` (the cached `unquoted` strings). -/
def lookup_all (d : Doc) (sec key : String) : List String :=
  (lookup_all_values d sec key).map (fun v => v.unquoted)

/-- lib.rs `SystemdUnit::lookup_all_with_reset`: fold over the unquoted
values; an empty value clears the accumulated vector. -/
def lookup_all_with_reset (d : Doc) (sec key : String) : List String :=
  (lookup_all d sec key).foldl (fun res v => if v = "" then [] else res ++ [v]) []

/-- lib.rs `SystemdUnit::lookup_last`. -/
def lookup_last (d : Doc) (sec key : String) : Option String :=
  (lookup_all d sec key).getLast?

/-- The mutation `set_entry_value` performs on one section's entry list:
remove all pairs with the key (collecting their values in order), drop the
last collected value, re-append the remaining ones, then append the new
value. -/
def setEntries (es : List (String × EntryValue)) (key : String) (value : EntryValue) : List (String × EntryValue) :=
  let vals := (es.filter (fun kv => kv.1 = key)).map (fun kv => kv.2)
  (es.filter (fun kv => ¬ kv.1 = key)) ++ vals.dropLast.map (fun w => (key, w)) ++ [(key, value)]

/-- lib.rs `SystemdUnit::set_entry_value`
(`entry(section).or_insert(default)` then remove-modify-append). -/
def set_entry_value : Doc → String → String → EntryValue → Doc
  | [], sec, key, value => [(sec, setEntries [] key value)]
  | (s, es) :: rest, sec, key, value =>
    if s = sec then (s, setEntries es key value) :: rest
    else (s, es) :: set_entry_value rest sec key value

/-- lib.rs `SystemdUnit::rename_section`. -/
def rename_section (d : Doc) (fromName toName : String) : Doc :=
  if ¬ has_section d fromName then d
  else
    let removed := (d.filter (fun se => se.1 = fromName)).map (fun se => se.2)
    let rest := d.filter (fun se => ¬ se.1 = fromName)
    if removed.isEmpty then rest
    else removed.flatten.foldl (fun acc kv => append_entry_value acc toName kv.1 kv.2) rest

/-- lib.rs `SystemdUnit::section_entry_values` (pairs of one section in
order). -/
def section_entry_values (d : Doc) (name : String) : List (String × EntryValue) :=
  getSection d name

/-- parser.rs line 173: `unit.sections.entry(section).or_insert(default)` —
make sure the section exists even with no entries. -/
def ensureSection (d : Doc) (name : String) : Doc :=
  if has_section d name then d else d ++ [(name, [])]

/-! ## lib.rs `write_to` — serialization -/

/-- The characters `write_to` emits for one `key=value` line. -/
def entryChars (k : String) (v : EntryValue) : List Char :=
  k.data ++ '=' :: (v.raw.data ++ ['\n'])

/-- The characters `write_to` emits for one section: header line, one line
per recorded pair, a blank line. -/
def sectionChars (s : String) (es : List (String × EntryValue)) : List Char :=
  '[' :: (s.data ++ ']' :: '\n' :: ((es.map (fun kv => entryChars kv.1 kv.2)).flatten ++ ['\n']))

/-- lib.rs `SystemdUnit::write_to`: the full serialized text. -/
def write_to (d : Doc) : String :=
  String.mk ((d.map (fun se => sectionChars se.1 se.2)).flatten)

/-! ## parser.rs — the recursive-descent parser

Line/column bookkeeping is omitted (no claim concerns error positions);
errors are their message strings. -/

/-- parser.rs `Parser::parse_comment` (the comment text is discarded by all
callers). -/
def parseComment (input : List Char) : Except String (List Char × List Char) :=
  match input with
  | [] => .error "expected comment, but found EOF"
  | c :: rest =>
    if c = '#' ∨ c = ';' then .ok (parseUntilAnyOf ['\n'] (c :: rest))
    else .error "expected comment"

/-- parser.rs `Parser::parse_key`.  (Rust checks `char::is_alphanumeric`,
which covers Unicode alphanumerics; the embedding models the ASCII
fragment, which is exact for ASCII input.) -/
def parseKey (input : List Char) : Except String (String × List Char) :=
  let kr := parseUntilAnyOf ['=', ' ', '\t', '\n', '\r'] input
  if kr.1.all (fun c => c.isAlphanum || c = '-') then .ok (String.mk kr.1, kr.2)
  else .error "Invalid key. Allowed characters are A-Za-z0-9-"

/-- parser.rs `Parser::parse_value`: scan a raw value with the
pending-backslash and post-line-continuation modes.  Every iteration
consumes at least one character, so the fuel passed by `parseEntry` cannot
run out. -/
def parseValueLoop : Nat → List Char → List Char → Bool → Bool → List Char × List Char
  | 0, input, acc, _, _ => (acc, input)
  | _ + 1, [], acc, _, _ => (acc, [])
  | fuel + 1, c :: rest, acc, backslash, lineCont =>
    if backslash then
      if c = '\n' then parseValueLoop fuel rest (acc ++ [' ']) false true
      else parseValueLoop fuel rest (acc ++ ['\\', c]) false lineCont
    else if lineCont then
      if c = '#' ∨ c = ';' then
        parseValueLoop fuel ((parseUntilAnyOf ['\n'] (c :: rest)).2).tail acc false true
      else if c = '\n' then (acc, c :: rest)
      else if c = '[' then (acc, c :: rest)
      else if c = '\\' then parseValueLoop fuel rest acc true false
      else parseValueLoop fuel rest (acc ++ [c]) false false
    else
      if c = '\\' then parseValueLoop fuel rest acc true false
      else if c = '\n' then (acc, c :: rest)
      else parseValueLoop fuel rest (acc ++ [c]) false false

/-- parser.rs `Parser::parse_entry`: key, whitespace, `=`, whitespace, raw
value. -/
def parseEntry (input : List Char) : Except String ((String × String) × List Char) :=
  match parseKey input with
  | .error e => .error e
  | .ok (key, r1) =>
    match (parseUntilNoneOf [' ', '\t'] r1).2 with
    | '=' :: r3 =>
      let r4 := (parseUntilNoneOf [' ', '\t'] r3).2
      let vr := parseValueLoop (r4.length + 1) r4 [] false false
      .ok ((key, String.mk vr.1), vr.2)
    | _ :: _ => .error "expected = after key"
    | [] => .error "expected = after key, but found EOF"

/-- parser.rs `Parser::parse_section_header`. -/
def parseSectionHeader (input : List Char) : Except String (String × List Char) :=
  match input with
  | [] => .error "expected [ as start of section header, but found EOF"
  | c :: r1 =>
    if c = '[' then
      let nr := parseUntilAnyOf [']', '\n'] r1
      match nr.2 with
      | ']' :: r3 =>
        if nr.1.isEmpty then .error "section header cannot be empty"
        else .ok (String.mk nr.1, r3)
      | _ :: _ => .error "expected ] as end of section header"
      | [] => .error "expected ] as end of section header, but found EOF"
    else .error "expected [ as start of section header"

/-- parser.rs `Parser::parse_section`'s entry loop: comments are skipped,
whitespace is skipped, `[` ends the section, anything else must be an
entry.  One iteration consumes at least one character. -/
def parseSectionLoop : Nat → List Char → List (String × String) → Except String (List (String × String) × List Char)
  | 0, input, es => .ok (es, input)
  | _ + 1, [], es => .ok (es, [])
  | fuel + 1, c :: rest, es =>
    if c = '#' ∨ c = ';' then
      parseSectionLoop fuel ((parseUntilAnyOf ['\n'] (c :: rest)).2) es
    else if c = '[' then .ok (es, c :: rest)
    else if is_ascii_whitespace c then parseSectionLoop fuel rest es
    else
      match parseEntry (c :: rest) with
      | .error e => .error e
      | .ok (kv, r) => parseSectionLoop fuel r (es ++ [kv])

/-- parser.rs `Parser::parse_section`: header then entries. -/
def parseSection (input : List Char) : Except String ((String × List (String × String)) × List Char) :=
  match parseSectionHeader input with
  | .error e => .error e
  | .ok (name, r) =>
    match parseSectionLoop (r.length + 1) r [] with
    | .error e => .error e
    | .ok (es, r2) => .ok ((name, es), r2)

/-- The `Display` rendering of an `Error` (lib.rs `impl fmt::Display for
Error`), as `parse_unit` embeds it into a `ParseError` message. -/
def errToString : Error → String
  | .ParseBool => "value must be one of 1, yes, true, on, 0, no, false, off"
  | .Unquoting msg => "failed unquoting value: " ++ msg
  | .Unit msg => "failed to parse unit file: " ++ msg

/-- parser.rs `parse_unit`'s per-section entry loop: each raw value runs
through `EntryValue::try_from_raw`; a decode failure aborts the parse. -/
def appendParsedEntries (u : Doc) (name : String) : List (String × String) → Except String Doc
  | [] => .ok u
  | (k, v) :: es =>
    match EntryValue.try_from_raw v with
    | .error e => .error (errToString e)
    | .ok ev => appendParsedEntries (append_entry_value u name k ev) name es

/-- parser.rs `Parser::parse_unit`: the top-level loop over comments,
sections and whitespace.  One iteration consumes at least one character. -/
def parseUnitLoop : Nat → List Char → Doc → Except String Doc
  | 0, _, u => .ok u
  | _ + 1, [], u => .ok u
  | fuel + 1, c :: rest, u =>
    if c = '#' ∨ c = ';' then
      parseUnitLoop fuel ((parseUntilAnyOf ['\n'] (c :: rest)).2) u
    else if c = '[' then
      match parseSection (c :: rest) with
      | .error e => .error e
      | .ok ((name, es), r) =>
        match appendParsedEntries (ensureSection u name) name es with
        | .error e => .error e
        | .ok u2 => parseUnitLoop fuel r u2
    else if is_ascii_whitespace c then parseUnitLoop fuel rest u
    else .error "Expected comment or section"

/-- lib.rs `SystemdUnit::load_from_str` (parse errors are wrapped as
`Error::Unit`). -/
def load_from_str (data : String) : Except Error Doc :=
  match parseUnitLoop (data.data.length + 1) data.data [] with
  | .ok u => .ok u
  | .error e => .error (.Unit e)

/-! ## Claim-side and condition definitions -/

/-- Scans a string for single quotes in quote-opener position (at the start
or right after space/tab/newline); such quotes are swallowed rather than
reproduced by `parse_and_unquote`, so the encode/decode round trip must
exclude them. -/
def noBadQuote : Option Char → List Char → Bool
  | _, [] => true
  | prev, c :: rest => !(c = '\'' && wsOrStart prev) && noBadQuote (some c) rest

/-- The claim's reading of `to_bool` ("trims ASCII whitespace"): trim with
`char::is_ascii_whitespace` instead of Unicode whitespace. -/
def asciiTrim (s : String) : String :=
  String.mk (((s.data.dropWhile is_ascii_whitespace).reverse.dropWhile is_ascii_whitespace).reverse)

/-- `to_bool` as the claim states it, with ASCII-only trimming (for
comparison against the source's Unicode `str::trim`). -/
def to_bool_claim (v : EntryValue) : Except Error Bool :=
  let trimmed := asciiTrim v.raw
  if trimmed = "" then .ok false
  else parse_bool trimmed

/-- The values after the last empty string of a list (the whole list if no
empty string occurs): the closed form of the reset-on-empty fold. -/
def afterLastReset (l : List String) : List String :=
  (l.reverse.takeWhile (fun v => ¬ v = "")).reverse

/-- A word-interior character for the tokenizers: not a separator, not a
quote, not a backslash. -/
def plainWordChar (c : Char) : Prop :=
  c ∉ WHITESPACE ∧ c ≠ '\'' ∧ c ≠ '"' ∧ c ≠ '\\'

/-- A well-formed section name for serialization stability: nonempty, no
`]`, no newline. -/
def wfName (s : String) : Prop :=
  s.data ≠ [] ∧ ']' ∉ s.data ∧ '\n' ∉ s.data

/-- A well-formed key for serialization stability: only (ASCII)
alphanumerics and `-`. -/
def wfKey (k : String) : Prop :=
  ∀ c ∈ k.data, (c.isAlphanum || c = '-') = true

/-- The raw-value shape `parse_value` copies verbatim: no newline anywhere,
and every backslash is followed by a (non-newline) character. -/
def rawValueOk : List Char → Bool
  | [] => true
  | c :: r =>
    if c = '\n' then false
    else if c = '\\' then
      match r with
      | [] => false
      | d :: r2 => !(d = '\n') && rawValueOk r2
    else rawValueOk r

/-- A well-formed raw literal for serialization stability: shaped for
`parse_value`, not starting with the whitespace `parse_entry` skips after
`=`, and decodable (the parser runs `try_from_raw` on it). -/
def wfRaw (r : String) : Prop :=
  rawValueOk r.data = true ∧ r.data.head? ≠ some ' ' ∧ r.data.head? ≠ some '\t' ∧
    (unquote_value r).isOk = true

/-- A document whose serialization parses back: distinct well-formed
section names, well-formed keys and raw values. -/
def wfDoc (d : Doc) : Prop :=
  (d.map (fun se => se.1)).Nodup ∧
    ∀ se ∈ d, wfName se.1 ∧ ∀ kv ∈ se.2, wfKey kv.1 ∧ wfRaw kv.2.raw

instance (c : Char) : Decidable (plainWordChar c) :=
  inferInstanceAs (Decidable (c ∉ WHITESPACE ∧ c ≠ '\'' ∧ c ≠ '"' ∧ c ≠ '\\'))

instance (s : String) : Decidable (wfName s) :=
  inferInstanceAs (Decidable (s.data ≠ [] ∧ ']' ∉ s.data ∧ '\n' ∉ s.data))

instance (k : String) : Decidable (wfKey k) :=
  decidable_of_iff (k.data.all (fun c => c.isAlphanum || c = '-') = true)
    (by simp [wfKey, List.all_eq_true])

instance (r : String) : Decidable (wfRaw r) :=
  inferInstanceAs (Decidable
    (rawValueOk r.data = true ∧ r.data.head? ≠ some ' ' ∧ r.data.head? ≠ some '\t' ∧
      (unquote_value r).isOk = true))

instance (d : Doc) : Decidable (wfDoc d) :=
  decidable_of_iff
    ((d.map (fun se => se.1)).Nodup ∧
      d.all (fun se => decide (wfName se.1) &&
        se.2.all (fun kv => decide (wfKey kv.1) && decide (wfRaw kv.2.raw))) = true)
    (by simp [wfDoc, List.all_eq_true])

/-- `d` with every value's cached `unquoted` field forgotten (serialization
depends only on what remains). -/
def eraseDoc (d : Doc) : List (String × List (String × String)) :=
  d.map (fun se => (se.1, se.2.map (fun kv => (kv.1, kv.2.raw))))

/-- `entryChars` on an erased (raw-only) pair. -/
def entryCharsE (k : String) (r : String) : List Char :=
  k.data ++ '=' :: (r.data ++ ['\n'])

/-- `sectionChars` on an erased (raw-only) section. -/
def sectionCharsE (s : String) (es : List (String × String)) : List Char :=
  '[' :: (s.data ++ ']' :: '\n' :: ((es.map (fun kv => entryCharsE kv.1 kv.2)).flatten ++ ['\n']))

/-- The concrete documents of the reset-semantics examples. -/
def resetDocABC : Doc :=
  append_entry (append_entry (append_entry (append_entry [] "Unit" "X" "a") "Unit" "X" "b") "Unit" "X" "") "Unit" "X" "c"

def resetDocAEE : Doc :=
  append_entry (append_entry (append_entry [] "Unit" "X" "a") "Unit" "X" "") "Unit" "X" ""

def resetDocAB : Doc :=
  append_entry (append_entry [] "Unit" "X" "a") "Unit" "X" "b"

/-!
# Theorems

First the helper lemmas, then one theorem per claim (with witnesses and
counterexamples where required).
-/

/-- C9: `unquote_value` decodes the literal `\x41` to `"A"`, and returns an
`Unquoting` error (no partial result) for a backslash at end of input, a
hex escape with too few digits or a non-hex digit, an octal escape digit
outside 0-7, a decoded code point of zero, and a decoded value that is not
a Unicode scalar value (a surrogate). -/
theorem c9_unquote_escapes :
    unquote_value "\\x41" = .ok "A" ∧
    (∃ m, unquote_value "a\\" = .error (.Unquoting m)) ∧
    (∃ m, unquote_value "\\xG" = .error (.Unquoting m)) ∧
    (∃ m, unquote_value "\\x4" = .error (.Unquoting m)) ∧
    (∃ m, unquote_value "\\078" = .error (.Unquoting m)) ∧
    (∃ m, unquote_value "\\000" = .error (.Unquoting m)) ∧
    (∃ m, unquote_value "\\ud800" = .error (.Unquoting m)) :=
  ⟨by decide, ⟨_, rfl⟩, ⟨_, rfl⟩, ⟨_, rfl⟩, ⟨_, rfl⟩, ⟨_, rfl⟩, ⟨_, rfl⟩⟩

/-- C5 (code bug evidence): parsing a bare `&#91;Name&#93;` header produces a
section with zero recorded entries, and `has_section` nevertheless reports
`true` for it — the code checks only `contains_key`, contrary to its own
doc comment ("non-empty instance") and the claim. -/
theorem c5_has_section_empty_section :
    load_from_str "[Name]\n" = .ok [("Name", [])] ∧
    has_section [("Name", [])] "Name" = true := by
  decide

/-- C10 (counterexample): the raw literal U+00A0 (no-break space) is
Unicode whitespace but not ASCII whitespace; `to_bool` trims it away and
returns `Ok(false)`, while the ASCII-trim reading of the claim would reach
the boolean parser and fail. -/
theorem c10_counterexample :
    EntryValue.to_bool ⟨String.mk [Char.ofNat 0xa0], String.mk [Char.ofNat 0xa0]⟩ = .ok false ∧
    to_bool_claim ⟨String.mk [Char.ofNat 0xa0], String.mk [Char.ofNat 0xa0]⟩ = .error .ParseBool := by
  decide

/-- C10 (amended): `to_bool` first trims Unicode whitespace (Rust
`str::trim`) from the raw literal; an empty trimmed text gives `Ok(false)`,
exactly `1`/`yes`/`true`/`on` give `Ok(true)`, exactly
`0`/`no`/`false`/`off` give `Ok(false)` (case-sensitive), and anything else
gives the `ParseBool` error. -/
theorem c10_to_bool_characterization (v : EntryValue) :
    (v.to_bool = .ok true ↔
      rustTrim v.raw ∈ (["1", "yes", "true", "on"] : List String)) ∧
    (v.to_bool = .ok false ↔
      (rustTrim v.raw = "" ∨ rustTrim v.raw ∈ (["0", "no", "false", "off"] : List String))) ∧
    (v.to_bool = .error .ParseBool ↔
      (rustTrim v.raw ≠ "" ∧
        rustTrim v.raw ∉ (["1", "yes", "true", "on", "0", "no", "false", "off"] : List String))) := by
  unfold EntryValue.to_bool parse_bool
  by_cases h0 : rustTrim v.raw = "" <;>
    by_cases h1 : rustTrim v.raw = "1" ∨ rustTrim v.raw = "yes" ∨ rustTrim v.raw = "true" ∨ rustTrim v.raw = "on" <;>
    by_cases h2 : rustTrim v.raw = "0" ∨ rustTrim v.raw = "no" ∨ rustTrim v.raw = "false" ∨ rustTrim v.raw = "off" <;>
    simp_all <;> rcases h1 with h | h | h | h <;> simp_all

theorem foldl_reset_eq_afterLastReset (l : List String) :
    l.foldl (fun res v => if v = "" then [] else res ++ [v]) [] = afterLastReset l := by
  induction l using List.reverseRecOn with
  | nil => rfl
  | append_singleton l a ih =>
    rw [List.foldl_append]
    by_cases ha : a = ""
    · simp [afterLastReset, ha]
    · simp only [List.foldl_cons, List.foldl_nil, ha, if_neg]
      rw [ih]
      unfold afterLastReset
      rw [List.reverse_append]
      simp [List.takeWhile_cons, ha]

/-- C7: `lookup_all_with_reset` scans oldest-to-newest and an empty logical
value discards everything accumulated so far — equivalently it returns the
values after the last empty one — and on recorded logical values
`a, b, "", c` it yields `c`; on `a, "", ""` it yields nothing; on `a, b` it
yields `a, b`. -/
theorem c7_lookup_all_with_reset :
    (∀ (d : Doc) (sec key : String),
      lookup_all_with_reset d sec key = afterLastReset (lookup_all d sec key)) ∧
    lookup_all_with_reset resetDocABC "Unit" "X" = ["c"] ∧
    lookup_all_with_reset resetDocAEE "Unit" "X" = [] ∧
    lookup_all_with_reset resetDocAB "Unit" "X" = ["a", "b"] := by
  refine ⟨fun d sec key => ?_, by decide, by decide, by decide⟩
  unfold lookup_all_with_reset
  exact foldl_reset_eq_afterLastReset _

theorem getSection_set_entry_value (d : Doc) (sec key : String) (v : EntryValue) (sec2 : String) :
    getSection (set_entry_value d sec key v) sec2 =
      if sec2 = sec then setEntries (getSection d sec) key v else getSection d sec2 := by
  induction d with
  | nil =>
    by_cases h : sec2 = sec
    · simp [set_entry_value, getSection, h]
    · have h2 : ¬ sec = sec2 := fun hh => h hh.symm
      simp [set_entry_value, getSection, h, h2]
  | cons se rest ih =>
    obtain ⟨s, es⟩ := se
    by_cases hs : s = sec
    · subst hs
      by_cases h2 : sec2 = s
      · subst h2
        simp [set_entry_value, getSection]
      · have h3 : ¬ s = sec2 := fun hh => h2 hh.symm
        simp [set_entry_value, getSection, h2, h3]
    · by_cases h2 : sec2 = s
      · subst h2
        simp [set_entry_value, getSection, hs]
      · have h3 : ¬ s = sec2 := fun hh => h2 hh.symm
        simp [set_entry_value, getSection, hs, h3, ih]

theorem setEntries_filter_same (es : List (String × EntryValue)) (key : String) (v : EntryValue) :
    ((setEntries es key v).filter (fun kv => kv.1 = key)).map (fun kv => kv.2) =
      ((es.filter (fun kv => kv.1 = key)).map (fun kv => kv.2)).dropLast ++ [v] := by
  unfold setEntries
  rw [List.filter_append, List.filter_append]
  have h1 : (es.filter (fun kv => ¬ kv.1 = key)).filter (fun kv => kv.1 = key) = [] := by
    rw [List.filter_filter]
    exact List.filter_eq_nil_iff.mpr (by intro a _; simp)
  have h2 : ∀ (l : List EntryValue),
      (l.map (fun w => (key, w))).filter (fun kv => kv.1 = key) = l.map (fun w => (key, w)) := by
    intro l
    exact List.filter_eq_self.mpr (by intro a ha; obtain ⟨w, _, rfl⟩ := List.mem_map.mp ha; simp)
  rw [h1, h2]
  simp [List.map_map, Function.comp_def]

theorem setEntries_filter_other (es : List (String × EntryValue)) (key : String) (v : EntryValue)
    (key2 : String) (h : key2 ≠ key) :
    (setEntries es key v).filter (fun kv => kv.1 = key2) = es.filter (fun kv => kv.1 = key2) := by
  unfold setEntries
  rw [List.filter_append, List.filter_append]
  have h1 : (es.filter (fun kv => ¬ kv.1 = key)).filter (fun kv => kv.1 = key2) =
      es.filter (fun kv => kv.1 = key2) := by
    rw [List.filter_filter]
    refine List.filter_congr ?_
    intro kv _
    by_cases hk : kv.1 = key2
    · have : ¬ kv.1 = key := fun hh => h (hk.symm.trans hh)
      simp [hk, this, h]
    · simp [hk]
  have h2 : ∀ (l : List EntryValue),
      (l.map (fun w => (key, w))).filter (fun kv => kv.1 = key2) = [] := by
    intro l
    refine List.filter_eq_nil_iff.mpr ?_
    intro a ha
    obtain ⟨w, _, rfl⟩ := List.mem_map.mp ha
    simpa using fun hh => h hh.symm
  rw [h1, h2]
  have h3 : ¬ key = key2 := fun hh => h hh.symm
  simp [h3]

/-- C6: `set(section, key, v)` replaces only the most recently appended
value for that key with `v` (its `lookup_all` sequence becomes the old one
minus its last element, plus `v`), leaves every other section/key lookup
unchanged, and creates the section/key when absent (the old sequence then
being empty). -/
theorem c6_set_entry_value (d : Doc) (sec key : String) (v : EntryValue) (sec2 key2 : String) :
    lookup_all (set_entry_value d sec key v) sec2 key2 =
      if sec2 = sec ∧ key2 = key then (lookup_all d sec key).dropLast ++ [v.unquoted]
      else lookup_all d sec2 key2 := by
  unfold lookup_all lookup_all_values
  rw [getSection_set_entry_value]
  by_cases hs : sec2 = sec
  · subst hs
    by_cases hk : key2 = key
    · subst hk
      rw [if_pos rfl, if_pos ⟨rfl, rfl⟩, setEntries_filter_same]
      simp [← List.map_dropLast]
    · have hcon : ¬ (sec2 = sec2 ∧ key2 = key) := fun hh => hk hh.2
      rw [if_pos rfl, if_neg hcon, setEntries_filter_other _ _ _ _ hk]
  · have : ¬ (sec2 = sec ∧ key2 = key) := fun hh => hs hh.1
    simp [hs, this]

theorem filter_ne_nil_of_has_section (d : Doc) (x : String) (h : has_section d x = true) :
    d.filter (fun se => se.1 = x) ≠ [] := by
  induction d with
  | nil => simp [has_section] at h
  | cons se rest ih =>
    obtain ⟨s, es⟩ := se
    rw [has_section, Bool.or_eq_true] at h
    rw [List.filter_cons]
    by_cases hh : s = x
    · rw [if_pos (by simpa using hh)]
      simp
    · rw [if_neg (by simpa using hh)]
      rcases h with h | h
      · exact absurd (by simpa using h) hh
      · exact ih h

theorem getSection_eq_nil_of_not_has_section (d : Doc) (x : String) (h : has_section d x = false) :
    getSection d x = [] := by
  induction d with
  | nil => rfl
  | cons se rest ih =>
    rw [has_section, Bool.or_eq_false_iff] at h
    obtain ⟨se1, se2⟩ := se
    rw [getSection, if_neg (by simpa using h.1)]
    exact ih h.2

theorem getSection_append_entry_value (D : Doc) (t k : String) (v : EntryValue) (x : String) :
    getSection (append_entry_value D t k v) x =
      if x = t then getSection D t ++ [(k, v)] else getSection D x := by
  induction D with
  | nil =>
    by_cases h : x = t
    · simp [append_entry_value, getSection, h]
    · have h2 : ¬ t = x := fun hh => h hh.symm
      simp [append_entry_value, getSection, h, h2]
  | cons se rest ih =>
    obtain ⟨s, es⟩ := se
    by_cases hs : s = t
    · subst hs
      by_cases hx : x = s
      · subst hx
        simp [append_entry_value, getSection]
      · have h2 : ¬ s = x := fun hh => hx hh.symm
        simp [append_entry_value, getSection, hx, h2]
    · by_cases hx : x = s
      · subst hx
        have h2 : ¬ x = t := fun hh => hs (by simp [hh])
        simp [append_entry_value, getSection, hs, h2]
      · have h2 : ¬ s = x := fun hh => hx hh.symm
        simp [append_entry_value, getSection, hs, h2, ih]

theorem has_section_append_entry_value (D : Doc) (t k : String) (v : EntryValue) (x : String) :
    has_section (append_entry_value D t k v) x = (has_section D x || decide (x = t)) := by
  induction D with
  | nil =>
    by_cases h : x = t
    · simp [append_entry_value, has_section, h]
    · have h2 : ¬ t = x := fun hh => h hh.symm
      simp [append_entry_value, has_section, h, h2]
  | cons se rest ih =>
    obtain ⟨s, es⟩ := se
    by_cases hs : s = t
    · subst hs
      simp [append_entry_value, has_section]
      by_cases hx : s = x
      · simp [hx]
      · have h2 : ¬ x = s := fun hh => hx hh.symm
        simp [hx, h2]
    · simp [append_entry_value, has_section, hs, ih, Bool.or_assoc]

theorem getSection_appendFold (ps : List (String × EntryValue)) (D : Doc) (t : String) :
    getSection (ps.foldl (fun acc kv => append_entry_value acc t kv.1 kv.2) D) t =
      getSection D t ++ ps := by
  induction ps generalizing D with
  | nil => simp
  | cons p ps ih =>
    rw [List.foldl_cons, ih, getSection_append_entry_value, if_pos rfl, List.append_assoc]
    rfl

theorem getSection_appendFold_ne (ps : List (String × EntryValue)) (D : Doc) (t x : String)
    (h : x ≠ t) :
    getSection (ps.foldl (fun acc kv => append_entry_value acc t kv.1 kv.2) D) x =
      getSection D x := by
  induction ps generalizing D with
  | nil => rfl
  | cons p ps ih =>
    rw [List.foldl_cons, ih, getSection_append_entry_value, if_neg h]

theorem has_section_appendFold_ne (ps : List (String × EntryValue)) (D : Doc) (t x : String)
    (h : x ≠ t) :
    has_section (ps.foldl (fun acc kv => append_entry_value acc t kv.1 kv.2) D) x =
      has_section D x := by
  induction ps generalizing D with
  | nil => rfl
  | cons p ps ih =>
    rw [List.foldl_cons, ih, has_section_append_entry_value]
    simp [h]

theorem getSection_filterOut (d : Doc) (x y : String) (h : y ≠ x) :
    getSection (d.filter (fun se => ¬ se.1 = x)) y = getSection d y := by
  induction d with
  | nil => rfl
  | cons se rest ih =>
    obtain ⟨s, es⟩ := se
    rw [List.filter_cons]
    by_cases hs : s = x
    · have h2 : ¬ x = y := fun hh => h hh.symm
      simp only [decide_not] at ih
      simp [hs, getSection, h2, ih]
    · rw [if_pos (by simp [hs])]
      simp only [decide_not] at ih
      by_cases hy : s = y
      · simp [getSection, hy]
      · simp [getSection, hy, ih]

theorem has_section_filterOut (d : Doc) (x : String) :
    has_section (d.filter (fun se => ¬ se.1 = x)) x = false := by
  induction d with
  | nil => rfl
  | cons se rest ih =>
    obtain ⟨s, es⟩ := se
    rw [List.filter_cons]
    simp only [decide_not] at ih
    by_cases hs : s = x
    · simp [hs, ih]
    · rw [if_pos (by simp [hs])]
      simp [has_section, hs, ih]

theorem filter_eq_nil_of_not_mem_names (d : Doc) (x : String)
    (h : x ∉ d.map (fun se => se.1)) :
    d.filter (fun se => se.1 = x) = [] := by
  refine List.filter_eq_nil_iff.mpr ?_
  intro se hse
  simp only [decide_eq_true_eq]
  intro hc
  exact h (List.mem_map.mpr ⟨se, hse, hc⟩)

theorem flatten_filter_eq_getSection (d : Doc) (x : String)
    (hnd : (d.map (fun se => se.1)).Nodup) :
    ((d.filter (fun se => se.1 = x)).map (fun se => se.2)).flatten = getSection d x := by
  induction d with
  | nil => rfl
  | cons se rest ih =>
    obtain ⟨s, es⟩ := se
    rw [List.map_cons, List.nodup_cons] at hnd
    rw [List.filter_cons]
    by_cases hs : s = x
    · subst hs
      rw [if_pos (by simp)]
      rw [filter_eq_nil_of_not_mem_names rest s hnd.1]
      simp [getSection]
    · rw [if_neg (by simp [hs])]
      simp [getSection, hs, ih hnd.2]

/-- C8 (counterexample): `rename_section` on a present-but-empty section is
not a no-op — the empty source section is removed (and the target is not
created), so `has_section` flips from `true` to `false`. -/
theorem c8_counterexample :
    has_section ([("X", [])] : Doc) "X" = true ∧
    rename_section ([("X", [])] : Doc) "X" "Y" = ([] : Doc) ∧
    has_section (rename_section ([("X", [])] : Doc) "X" "Y") "X" = false := by
  decide

/-- C8 (amended): `rename_section(from, to)` is a no-op when `from` does
not exist; when `from` exists (for distinct section names and `from ≠ to`)
every key/value pair of `from` is appended after `to`'s existing entries in
original pair order and `from` no longer exists afterwards — except that a
present-but-empty `from` is removed rather than left alone (its zero pairs
still "move"). -/
theorem c8_rename_section (d : Doc) (fromName toName : String) :
    (has_section d fromName = false → rename_section d fromName toName = d) ∧
    ((d.map (fun se => se.1)).Nodup → fromName ≠ toName →
      section_entry_values (rename_section d fromName toName) toName =
        section_entry_values d toName ++ section_entry_values d fromName ∧
      has_section (rename_section d fromName toName) fromName = false) := by
  constructor
  · intro h
    simp [rename_section, h]
  · intro hnd hne
    by_cases hhas : has_section d fromName = true
    · have hfil : d.filter (fun se => se.1 = fromName) ≠ [] :=
        filter_ne_nil_of_has_section d fromName hhas
      have hremoved : ((d.filter (fun se => se.1 = fromName)).map (fun se => se.2)).isEmpty = false := by
        rw [List.isEmpty_eq_false]
        simpa using hfil
      rw [rename_section, if_neg (by simp [hhas]), if_neg (by simp [hremoved])]
      constructor
      · unfold section_entry_values
        rw [getSection_appendFold, getSection_filterOut _ _ _ (Ne.symm hne),
          flatten_filter_eq_getSection d fromName hnd]
      · rw [has_section_appendFold_ne _ _ _ _ hne, has_section_filterOut]
    · have hfalse : has_section d fromName = false := by
        rwa [Bool.not_eq_true] at hhas
      have hnil : getSection d fromName = [] :=
        getSection_eq_nil_of_not_has_section d fromName hfalse
      rw [rename_section, if_pos (by simp [hfalse])]
      refine ⟨?_, hfalse⟩
      show getSection d toName = getSection d toName ++ getSection d fromName
      rw [hnil, List.append_nil]

theorem c8_rename_section_witness :
    rename_section ([("A", [])] : Doc) "B" "C" = [("A", [])] ∧
    (section_entry_values
        (rename_section ([("Y", [("k", EntryValue.from_unquoted "v")]),
          ("X", [("a", EntryValue.from_unquoted "1")])] : Doc) "X" "Y") "Y" =
      section_entry_values ([("Y", [("k", EntryValue.from_unquoted "v")]),
          ("X", [("a", EntryValue.from_unquoted "1")])] : Doc) "Y" ++
        section_entry_values ([("Y", [("k", EntryValue.from_unquoted "v")]),
          ("X", [("a", EntryValue.from_unquoted "1")])] : Doc) "X" ∧
      has_section
        (rename_section ([("Y", [("k", EntryValue.from_unquoted "v")]),
          ("X", [("a", EntryValue.from_unquoted "1")])] : Doc) "X" "Y") "X" = false) :=
  ⟨(c8_rename_section ([("A", [])] : Doc) "B" "C").1 (by decide),
   (c8_rename_section _ "X" "Y").2 (by decide) (by decide)⟩

theorem finishWord_some (word rest : List Char) (w r : List Char)
    (h : finishWord word rest = some (w, r)) : w = word ∧ w ≠ [] := by
  unfold finishWord at h
  by_cases he : word.isEmpty
  · simp [he] at h
  · rw [if_neg he] at h
    obtain ⟨rfl, rfl⟩ : word = w ∧ rest = r := by
      simpa using h
    exact ⟨rfl, by simpa [List.isEmpty_iff] using he⟩

theorem splitStrvNext_some_ne_nil (input : List Char) (w r : List Char)
    (h : splitStrvNext input = some (w, r)) : w ≠ [] :=
  (finishWord_some _ _ _ _ h).2

theorem splitWordLoop_some_ne_nil (fuel : Nat) :
    ∀ (input word : List Char) (q : Option Char) (bs : Bool) (w r : List Char),
      splitWordLoop fuel input word q bs = some (w, r) → w ≠ [] := by
  induction fuel with
  | zero => intro input word q bs w r h; simp [splitWordLoop] at h
  | succ fuel ih =>
    intro input word q bs w r h
    match input with
    | [] => exact (finishWord_some _ _ _ _ h).2
    | c :: rest =>
      simp only [splitWordLoop] at h
      repeat' split at h
      all_goals
        first
          | exact (finishWord_some _ _ _ _ h).2
          | exact ih _ _ _ _ _ _ h
          | simp at h

theorem splitWordNext_some_ne_nil (input : List Char) (w r : List Char)
    (h : splitWordNext input = some (w, r)) : w ≠ [] :=
  splitWordLoop_some_ne_nil _ _ _ _ _ _ _ h

theorem tokenizeLoop_no_empty (next : List Char → Option (List Char × List Char))
    (hnext : ∀ input w r, next input = some (w, r) → w ≠ []) :
    ∀ (fuel : Nat) (input : List Char), "" ∉ tokenizeLoop next fuel input := by
  intro fuel
  induction fuel with
  | zero => intro input; simp [tokenizeLoop]
  | succ fuel ih =>
    intro input
    rw [tokenizeLoop]
    match hn : next input with
    | none => simp
    | some (w, r) =>
      simp only [List.mem_cons, not_or]
      refine ⟨fun hc => hnext input w r hn ?_, ih r⟩
      have : ("" : String).data = (String.mk w).data := by rw [hc]
      simpa using this.symm

theorem parseUntilNoneOf_all (ends : List Char) (l : List Char) (h : ∀ c ∈ l, c ∈ ends) :
    parseUntilNoneOf ends l = (l, []) := by
  induction l with
  | nil => rfl
  | cons c rest ih =>
    rw [parseUntilNoneOf, if_neg (by simpa using h c (by simp)), ih (fun x hx => h x (by simp [hx]))]

theorem parseUntilNoneOf_nostop (ends : List Char) (c : Char) (r : List Char) (h : c ∉ ends) :
    parseUntilNoneOf ends (c :: r) = ([], c :: r) := by
  rw [parseUntilNoneOf, if_pos h]

theorem splitStrvNext_allws (input : List Char) (h : ∀ c ∈ input, c ∈ WHITESPACE) :
    splitStrvNext input = none := by
  unfold splitStrvNext
  rw [parseUntilNoneOf_all _ _ h]
  rfl

theorem splitWordNext_allws (input : List Char) (h : ∀ c ∈ input, c ∈ WHITESPACE) :
    splitWordNext input = none := by
  unfold splitWordNext
  rw [parseUntilNoneOf_all _ _ h]
  rfl

/-- C4 (counterexample): on input `'' a` (two adjacent quotes enclosing
nothing, then a word), `SplitStrv` yields no words at all — the empty
top-level match makes `next` return `None`, which ends the iteration
instead of continuing over the rest of the input as the claim states. -/
theorem c4_counterexample :
    tokenizeStrv (String.mk ['\'', '\'', ' ', 'a']) = [] ∧
    tokenizeStrv (String.mk ['\'', '\'', ' ', 'a']) ≠ [String.mk ['a']] := by
  decide

/-- C4 (amended): neither tokenizer ever yields an empty-string word, and
an empty or all-whitespace input yields zero words; however an empty match
at top level ends the iteration (no further words are produced from the
rest of the input) rather than being skipped. -/
theorem c4_no_empty_words :
    (∀ s : String, "" ∉ tokenizeStrv s) ∧
    (∀ s : String, "" ∉ tokenizeWords s) ∧
    (∀ s : String, (∀ c ∈ s.data, c ∈ WHITESPACE) →
      tokenizeStrv s = [] ∧ tokenizeWords s = []) := by
  refine ⟨fun s => ?_, fun s => ?_, fun s h => ⟨?_, ?_⟩⟩
  · exact tokenizeLoop_no_empty _ (fun input w r hw => splitStrvNext_some_ne_nil input w r hw) _ _
  · exact tokenizeLoop_no_empty _ (fun input w r hw => splitWordNext_some_ne_nil input w r hw) _ _
  · unfold tokenizeStrv
    rw [tokenizeLoop, splitStrvNext_allws _ h]
  · unfold tokenizeWords
    rw [tokenizeLoop, splitWordNext_allws _ h]

theorem c4_no_empty_words_witness :
    tokenizeStrv (String.mk [' ', '\t']) = [] ∧ tokenizeWords (String.mk [' ', '\t']) = [] :=
  c4_no_empty_words.2.2 (String.mk [' ', '\t']) (by decide)

theorem splitWordLoop_badEscape (t : List Char) :
    ∀ (s word : List Char) (fuel : Nat), (∀ c ∈ s, plainWordChar c) → s.length + 1 < fuel →
      splitWordLoop fuel (s ++ '\\' :: 'x' :: 'G' :: t) word none false = none := by
  intro s
  induction s with
  | nil =>
    intro word fuel _ hfuel
    obtain ⟨f, rfl⟩ : ∃ f, fuel = f + 1 := ⟨fuel - 1, by omega⟩
    rw [List.nil_append, splitWordLoop]
    rw [if_neg (by simp)]
    simp only
    rw [if_neg (by decide), if_pos trivial]
    obtain ⟨f2, rfl⟩ : ∃ f2, f = f2 + 1 := ⟨f - 1, by omega⟩
    rw [splitWordLoop, if_pos rfl]
    have : split_parse_escape_sequence 'x' ('G' :: t) = .error ("Expected hex values, but got " ++ String.mk ['G']) := by
      rfl
    rw [this]
  | cons a s ih =>
    intro word fuel hplain hfuel
    obtain ⟨f, rfl⟩ : ∃ f, fuel = f + 1 := ⟨fuel - 1, by omega⟩
    have ha := hplain a (by simp)
    obtain ⟨ha1, ha2, ha3, ha4⟩ := ha
    rw [List.cons_append, splitWordLoop]
    rw [if_neg (by simp)]
    rw [if_neg (by simp [ha2, ha3]), if_neg ha4, if_neg ha1]
    exact ih (word ++ [a]) f (fun c hc => hplain c (by simp [hc])) (by simpa using Nat.lt_of_succ_lt_succ hfuel)

/-- C3: when `SplitWord` hits a malformed escape sequence (here `\xG`), the
whole iteration ends immediately: `next` returns `None` and no words at all
are produced from such an input — whatever well-formed text follows the bad
escape — rather than just the offending word being skipped (on
`a \xG b`, only `a` is ever yielded and `b` never appears). -/
theorem c3_splitword_fail_closed (s t : List Char) (h : ∀ c ∈ s, plainWordChar c) :
    splitWordNext (s ++ '\\' :: 'x' :: 'G' :: t) = none ∧
    tokenizeWords (String.mk (s ++ '\\' :: 'x' :: 'G' :: t)) = [] ∧
    tokenizeWords (String.mk ['a', ' ', '\\', 'x', 'G', ' ', 'b']) = [String.mk ['a']] := by
  have hnext : splitWordNext (s ++ '\\' :: 'x' :: 'G' :: t) = none := by
    unfold splitWordNext
    have hskip : parseUntilNoneOf WHITESPACE (s ++ '\\' :: 'x' :: 'G' :: t) =
        ([], s ++ '\\' :: 'x' :: 'G' :: t) := by
      match s with
      | [] => exact parseUntilNoneOf_nostop _ _ _ (by decide)
      | a :: s2 => exact parseUntilNoneOf_nostop _ _ _ (h a (by simp)).1
    rw [hskip]
    refine splitWordLoop_badEscape t s [] _ h ?_
    simp only [List.length_append, List.length_cons]
    omega
  refine ⟨hnext, ?_, by decide⟩
  unfold tokenizeWords
  rw [tokenizeLoop]
  simp only [String.data]
  rw [hnext]

theorem c3_splitword_fail_closed_witness :
    splitWordNext (['a', 'b'] ++ '\\' :: 'x' :: 'G' :: [' ', 'h', 'i']) = none ∧
    tokenizeWords (String.mk (['a', 'b'] ++ '\\' :: 'x' :: 'G' :: [' ', 'h', 'i'])) = [] ∧
    tokenizeWords (String.mk ['a', ' ', '\\', 'x', 'G', ' ', 'b']) = [String.mk ['a']] :=
  c3_splitword_fail_closed ['a', 'b'] [' ', 'h', 'i'] (by decide)

theorem lowerHexDigit_isHex (m : Nat) (h : m < 16) :
    is_ascii_hexdigit (lowerHexDigit m) = true := by
  interval_cases m <;> decide

theorem hexDigitVal_lowerHexDigit (m : Nat) (h : m < 16) :
    hexDigitVal (lowerHexDigit m) = m := by
  interval_cases m <;> decide

theorem char_toNat_ne_zero (c : Char) (h : c ≠ '\x00') : c.toNat ≠ 0 := by
  intro hz
  apply h
  have hc := (Char.ofNat_toNat c).symm
  rw [hz] at hc
  exact hc.trans (by decide)

theorem unquote_quote_step (c : Char) (acc T : List Char) (fuel : Nat)
    (h0 : c ≠ '\x00') (hq : c = '\'' → quoteOpenerPos acc = false) :
    unquoteLoop (fuel + 1) (quoteChar c ++ T) acc none = unquoteLoop fuel T (acc ++ [c]) none := by
  by_cases hA : char_needs_escaping c = false
  · have hqc : quoteChar c = [c] := by
      unfold quoteChar
      rw [if_pos (by simp [hA])]
    have hsq : c ≠ '\'' := by intro h; rw [h] at hA; exact absurd hA (by decide)
    have hdq : c ≠ '"' := by intro h; rw [h] at hA; exact absurd hA (by decide)
    have hbs : c ≠ '\\' := by intro h; rw [h] at hA; exact absurd hA (by decide)
    rw [hqc, List.singleton_append]
    simp only [unquoteLoop]
    rw [if_neg (by simp [hsq, hdq]), if_neg hbs, if_neg (by simp)]
  · have hE : char_needs_escaping c = true := by
      rwa [Bool.not_eq_false] at hA
    by_cases h7 : c = '\x07'
    · subst h7; rw [show quoteChar '\x07' = ['\\', 'a'] from rfl]; rfl
    by_cases h8 : c = '\x08'
    · subst h8; rw [show quoteChar '\x08' = ['\\', 'b'] from rfl]; rfl
    by_cases hn : c = '\n'
    · subst hn; rw [show quoteChar '\n' = ['\\', 'n'] from rfl]; rfl
    by_cases hr : c = '\r'
    · subst hr; rw [show quoteChar '\r' = ['\\', 'r'] from rfl]; rfl
    by_cases ht : c = '\t'
    · subst ht; rw [show quoteChar '\t' = ['\\', 't'] from rfl]; rfl
    by_cases hv : c = '\x0b'
    · subst hv; rw [show quoteChar '\x0b' = ['\\', 'v'] from rfl]; rfl
    by_cases hf : c = '\x0c'
    · subst hf; rw [show quoteChar '\x0c' = ['\\', 'f'] from rfl]; rfl
    by_cases hbs : c = '\\'
    · subst hbs; rw [show quoteChar '\\' = ['\\', '\\'] from rfl]; rfl
    by_cases hsp : c = ' '
    · subst hsp
      rw [show quoteChar ' ' = [' '] from rfl, List.singleton_append]
      simp only [unquoteLoop]
      rw [if_neg (by simp), if_neg (by decide), if_neg (by simp)]
    by_cases hdq : c = '"'
    · subst hdq; rw [show quoteChar '"' = ['\\', '"'] from rfl]; rfl
    by_cases hsq : c = '\''
    · subst hsq
      rw [show quoteChar '\'' = ['\''] from rfl, List.singleton_append]
      simp only [unquoteLoop]
      rw [if_neg (by simp [hq rfl]), if_neg (by decide), if_neg (by simp)]
    -- the two-hex-digit fallback arm
    have hqc : quoteChar c =
        ['\\', 'x', lowerHexDigit (c.toNat / 16), lowerHexDigit (c.toNat % 16)] := by
      unfold quoteChar
      rw [if_neg (by simp [hE]), if_neg h7, if_neg h8, if_neg hn, if_neg hr, if_neg ht,
        if_neg hv, if_neg hf, if_neg hbs, if_neg hsp, if_neg hdq, if_neg hsq]
    have hctrl : is_ascii_control c = true := by
      unfold char_needs_escaping at hE
      by_cases hgt : 128 < c.toNat
      · rw [if_pos hgt] at hE; exact absurd hE (by simp)
      · rw [if_neg hgt] at hE
        simp only [Bool.or_eq_true] at hE
        rcases hE with ((((hc | hw) | h) | h) | h)
        · exact hc
        · unfold is_ascii_whitespace at hw
          simp only [Bool.or_eq_true, decide_eq_true_eq] at hw
          rcases hw with (((h | h) | h) | h) | h <;> simp_all
        · simp only [decide_eq_true_eq] at h; exact absurd h hdq
        · simp only [decide_eq_true_eq] at h; exact absurd h hsq
        · simp only [decide_eq_true_eq] at h; exact absurd h hbs
    have hle : c.toNat ≤ 127 := by
      unfold is_ascii_control at hctrl
      simp only [Bool.and_eq_true, decide_eq_true_eq] at hctrl
      exact hctrl.1
    have h0n : c.toNat ≠ 0 := char_toNat_ne_zero c h0
    rw [hqc]
    have hstep1 : unquoteLoop (fuel + 1)
        (['\\', 'x', lowerHexDigit (c.toNat / 16), lowerHexDigit (c.toNat % 16)] ++ T) acc none =
        match parse_unicode_escape 16 2
            (lowerHexDigit (c.toNat / 16) :: lowerHexDigit (c.toNat % 16) :: T) with
        | .error er => .error er
        | .ok (ch, rest3) => unquoteLoop fuel rest3 (acc ++ [ch]) none := rfl
    rw [hstep1]
    have hd1 : c.toNat / 16 < 16 := by omega
    have hd2 : c.toNat % 16 < 16 := by omega
    have hgo : parse_unicode_escape 16 2
        (lowerHexDigit (c.toNat / 16) :: lowerHexDigit (c.toNat % 16) :: T) =
        .ok (Char.ofNat c.toNat, T) := by
      unfold parse_unicode_escape
      rw [parse_unicode_escape_go, if_neg (by simp [lowerHexDigit_isHex _ hd1]),
        if_neg (by simp)]
      rw [parse_unicode_escape_go, if_neg (by simp [lowerHexDigit_isHex _ hd2]),
        if_neg (by simp)]
      rw [parse_unicode_escape_go]
      have hcode : codeVal 16 ([] ++ [lowerHexDigit (c.toNat / 16)] ++ [lowerHexDigit (c.toNat % 16)]) = c.toNat := by
        simp only [List.nil_append, List.singleton_append, codeVal, List.foldl_cons,
          List.foldl_nil]
        rw [hexDigitVal_lowerHexDigit _ hd1, hexDigitVal_lowerHexDigit _ hd2]
        omega
      simp only [hcode]
      rw [if_neg h0n, if_pos (by unfold isUnicodeScalar; simp; omega)]
    rw [hgo, Char.ofNat_toNat]

theorem quoteChar_length_pos (c : Char) : 1 ≤ (quoteChar c).length := by
  unfold quoteChar
  by_cases h0 : (!char_needs_escaping c) = true
  · rw [if_pos h0]; simp
  rw [if_neg h0]
  by_cases h1 : c = '\x07'
  · rw [if_pos h1]; simp
  rw [if_neg h1]
  by_cases h2 : c = '\x08'
  · rw [if_pos h2]; simp
  rw [if_neg h2]
  by_cases h3 : c = '\n'
  · rw [if_pos h3]; simp
  rw [if_neg h3]
  by_cases h4 : c = '\r'
  · rw [if_pos h4]; simp
  rw [if_neg h4]
  by_cases h5 : c = '\t'
  · rw [if_pos h5]; simp
  rw [if_neg h5]
  by_cases h6 : c = '\x0b'
  · rw [if_pos h6]; simp
  rw [if_neg h6]
  by_cases h7 : c = '\x0c'
  · rw [if_pos h7]; simp
  rw [if_neg h7]
  by_cases h8 : c = '\\'
  · rw [if_pos h8]; simp
  rw [if_neg h8]
  by_cases h9 : c = ' '
  · rw [if_pos h9]; simp
  rw [if_neg h9]
  by_cases h10 : c = '"'
  · rw [if_pos h10]; simp
  rw [if_neg h10]
  by_cases h11 : c = '\''
  · rw [if_pos h11]; simp
  rw [if_neg h11]
  simp

theorem unquote_quoteChars (s : List Char) :
    ∀ (acc : List Char) (fuel : Nat), (quoteChars s).length < fuel →
      (∀ c ∈ s, c ≠ '\x00') → noBadQuote acc.getLast? s = true →
      unquoteLoop fuel (quoteChars s) acc none = .ok (acc ++ s) := by
  induction s with
  | nil =>
    intro acc fuel hfuel _ _
    obtain ⟨f, rfl⟩ : ∃ f, fuel = f + 1 := ⟨fuel - 1, by omega⟩
    simp [quoteChars, unquoteLoop]
  | cons c s ih =>
    intro acc fuel hfuel h0 hnb
    have hq1 : quoteChars (c :: s) = quoteChar c ++ quoteChars s := by
      simp [quoteChars]
    rw [hq1] at hfuel ⊢
    have hpos := quoteChar_length_pos c
    rw [List.length_append] at hfuel
    obtain ⟨f, rfl⟩ : ∃ f, fuel = f + 1 := ⟨fuel - 1, by omega⟩
    rw [noBadQuote] at hnb
    simp only [Bool.and_eq_true] at hnb
    have hguard : c = '\'' → quoteOpenerPos acc = false := by
      intro hc
      subst hc
      simpa [quoteOpenerPos] using hnb.1
    rw [unquote_quote_step c acc (quoteChars s) f (h0 c (by simp)) hguard]
    have hrec := ih (acc ++ [c]) f (by omega) (fun x hx => h0 x (by simp [hx]))
      (by rw [List.getLast?_concat]; exact hnb.2)
    rw [hrec]
    simp

/-- C1 (counterexample): the logical string consisting of one single quote
encodes (via `quote_value`, which leaves `'` unescaped) to a literal that
decodes to the empty string — the quote in opener position is swallowed —
so the encode/decode round trip fails on it. -/
theorem c1_counterexample :
    quote_value (String.mk ['\'']) = String.mk ['\''] ∧
    unquote_value (quote_value (String.mk ['\''])) = .ok "" ∧
    String.mk ['\''] ≠ "" := by
  decide

/-- C1 (amended): for every logical string that contains no NUL character
(whose encoding `\x00` is rejected by the decoder) and no single quote in
opener position (at the start or right after space/tab/newline, where the
decoder would swallow it), decoding the literal produced by encoding the
string yields exactly the string again, both through `quote_value` and
through the raw literal of `EntryValue::from_unquoted`. -/
theorem c1_unquote_quote_roundtrip (s : String) (h0 : ∀ c ∈ s.data, c ≠ '\x00')
    (hnb : noBadQuote none s.data = true) :
    unquote_value (quote_value s) = .ok s ∧
    unquote_value (EntryValue.from_unquoted s).raw = .ok s := by
  have hmain : unquote_value (quote_value s) = .ok s := by
    unfold unquote_value quote_value
    rw [show (String.mk (quoteChars s.data)).data = quoteChars s.data from rfl]
    rw [unquote_quoteChars s.data [] ((quoteChars s.data).length + 1) (by omega) h0
      (by simpa using hnb)]
    rfl
  exact ⟨hmain, hmain⟩

theorem c1_unquote_quote_roundtrip_witness :
    unquote_value (quote_value (String.mk ['a', '\\', 'n', '\t', '"', ' ', 'b', '\x01'])) =
      .ok (String.mk ['a', '\\', 'n', '\t', '"', ' ', 'b', '\x01']) ∧
    unquote_value (EntryValue.from_unquoted (String.mk ['a', '\\', 'n', '\t', '"', ' ', 'b', '\x01'])).raw =
      .ok (String.mk ['a', '\\', 'n', '\t', '"', ' ', 'b', '\x01']) :=
  c1_unquote_quote_roundtrip (String.mk ['a', '\\', 'n', '\t', '"', ' ', 'b', '\x01'])
    (by decide) (by decide)

theorem parseUntilAnyOf_stop (ends : List Char) (pre : List Char) (e : Char) (post : List Char)
    (hpre : ∀ c ∈ pre, c ∉ ends) (he : e ∈ ends) :
    parseUntilAnyOf ends (pre ++ e :: post) = (pre, e :: post) := by
  induction pre with
  | nil => rw [List.nil_append, parseUntilAnyOf, if_pos he]
  | cons a pre ih =>
    rw [List.cons_append, parseUntilAnyOf, if_neg (hpre a (by simp))]
    rw [ih (fun c hc => hpre c (by simp [hc]))]

theorem parseValueLoop_raw : ∀ (n : Nat) (v : List Char), v.length ≤ n →
    ∀ (acc rest : List Char) (fuel : Nat), rawValueOk v = true →
      (v ++ '\n' :: rest).length < fuel →
      parseValueLoop fuel (v ++ '\n' :: rest) acc false false = (acc ++ v, '\n' :: rest) := by
  intro n
  induction n with
  | zero =>
    intro v hv acc rest fuel _ hfuel
    match v with
    | [] =>
      obtain ⟨f, rfl⟩ : ∃ f, fuel = f + 1 := ⟨fuel - 1, by omega⟩
      simp
      rfl
  | succ n ih =>
    intro v hv acc rest fuel hok hfuel
    match v with
    | [] =>
      obtain ⟨f, rfl⟩ : ∃ f, fuel = f + 1 := ⟨fuel - 1, by omega⟩
      simp
      rfl
    | c :: r =>
      by_cases hbs : c = '\\'
      · subst hbs
        rcases r with _ | ⟨d, r2⟩
        · exact absurd hok (by decide)
        · rw [rawValueOk.eq_def] at hok
          simp at hok
          obtain ⟨hd, hok2⟩ := hok
          rw [List.length_cons, List.length_cons] at hv
          rw [List.cons_append, List.cons_append] at hfuel ⊢
          simp only [List.length_cons, List.length_append] at hfuel
          obtain ⟨f, rfl⟩ : ∃ f, fuel = f + 1 := ⟨fuel - 1, by omega⟩
          have step1 : parseValueLoop (f + 1) ('\\' :: d :: (r2 ++ '\n' :: rest)) acc false false =
              parseValueLoop f (d :: (r2 ++ '\n' :: rest)) acc true false := rfl
          rw [step1]
          obtain ⟨f2, rfl⟩ : ∃ f2, f = f2 + 1 := ⟨f - 1, by omega⟩
          rw [parseValueLoop, if_pos rfl, if_neg hd]
          have := ih r2 (by omega) (acc ++ ['\\', d]) rest f2 hok2
            (by simp only [List.length_append, List.length_cons]; omega)
          rw [this]
          simp
      · by_cases hnl : c = '\n'
        · subst hnl
          rw [rawValueOk.eq_def] at hok
          simp at hok
        replace hok : rawValueOk r = true := by
          rw [rawValueOk.eq_def] at hok
          simpa [hnl, hbs] using hok
        rw [List.length_cons] at hv
        rw [List.cons_append] at hfuel ⊢
        simp only [List.length_cons, List.length_append] at hfuel
        obtain ⟨f, rfl⟩ : ∃ f, fuel = f + 1 := ⟨fuel - 1, by omega⟩
        rw [parseValueLoop, if_neg (by simp), if_neg (by simp), if_neg hbs, if_neg hnl]
        have := ih r (by omega) (acc ++ [c]) rest f hok
          (by simp only [List.length_append, List.length_cons]; omega)
        rw [this]
        simp

theorem key_char_not_delim (c : Char) (h : (c.isAlphanum || c = '-') = true) :
    c ∉ (['=', ' ', '\t', '\n', '\r'] : List Char) := by
  intro hc
  fin_cases hc <;> exact absurd h (by decide)

theorem key_char_not_special (c : Char) (h : (c.isAlphanum || c = '-') = true) :
    ¬(c = '#' ∨ c = ';') ∧ ¬ c = '[' ∧ is_ascii_whitespace c = false := by
  refine ⟨?_, ?_, ?_⟩
  · rintro (h1 | h1) <;> subst h1 <;> exact absurd h (by decide)
  · intro h1; subst h1; exact absurd h (by decide)
  · by_contra hb
    rw [Bool.not_eq_false] at hb
    unfold is_ascii_whitespace at hb
    simp only [Bool.or_eq_true, decide_eq_true_eq] at hb
    rcases hb with ((((h1 | h1) | h1) | h1) | h1) <;> subst h1 <;> exact absurd h (by decide)

theorem parseKey_roundtrip (k : String) (rest : List Char) (hk : wfKey k) :
    parseKey (k.data ++ '=' :: rest) = .ok (k, '=' :: rest) := by
  unfold parseKey
  rw [parseUntilAnyOf_stop _ _ _ _ (fun c hc => key_char_not_delim c (hk c hc)) (by simp)]
  rw [if_pos (List.all_eq_true.mpr (fun c hc => hk c hc))]

theorem value_head_not_ws (v : String) (rest : List Char) (hv : wfRaw v) :
    parseUntilNoneOf [' ', '\t'] (v.data ++ '\n' :: rest) = ([], v.data ++ '\n' :: rest) := by
  rcases hd : v.data with _ | ⟨c0, r0⟩
  · rw [List.nil_append]
    exact parseUntilNoneOf_nostop _ _ _ (by decide)
  · obtain ⟨_, hsp, hht, _⟩ := hv
    rw [hd] at hsp hht
    simp only [List.head?] at hsp hht
    rw [List.cons_append]
    refine parseUntilNoneOf_nostop _ _ _ ?_
    intro hmem
    simp only [List.mem_cons, List.not_mem_nil, or_false] at hmem
    rcases hmem with h | h
    · exact hsp (by rw [h])
    · exact hht (by rw [h])

theorem parseEntry_roundtrip (k : String) (v : String) (rest : List Char)
    (hk : wfKey k) (hv : wfRaw v) :
    parseEntry (k.data ++ '=' :: (v.data ++ '\n' :: rest)) = .ok ((k, v), '\n' :: rest) := by
  unfold parseEntry
  rw [parseKey_roundtrip k (v.data ++ '\n' :: rest) hk]
  simp only
  rw [parseUntilNoneOf_nostop _ _ _ (by decide)]
  simp only
  rw [value_head_not_ws v rest hv]
  simp only
  rw [parseValueLoop_raw (v.data).length v.data le_rfl [] rest _ hv.1 (by omega)]
  simp

theorem parseSectionHeader_roundtrip (s : String) (rest : List Char) (hs : wfName s) :
    parseSectionHeader ('[' :: (s.data ++ ']' :: rest)) = .ok (s, rest) := by
  unfold parseSectionHeader
  simp only
  rw [if_pos trivial]
  rw [parseUntilAnyOf_stop _ _ _ _ (fun c hc hmem => by
    obtain ⟨_, hrb, hnl⟩ := hs
    simp only [List.mem_cons, List.not_mem_nil, or_false] at hmem
    rcases hmem with h | h
    · exact hrb (h ▸ hc)
    · exact hnl (h ▸ hc)) (by simp)]
  simp only
  rw [if_neg (by simpa [List.isEmpty_iff] using hs.1)]

theorem parseSectionLoop_entry_step (fuel : Nat) (k : String) (v : String) (R : List Char)
    (acc : List (String × String)) (hk : wfKey k) (hv : wfRaw v) :
    parseSectionLoop (fuel + 1) (k.data ++ '=' :: (v.data ++ '\n' :: R)) acc =
      parseSectionLoop fuel ('\n' :: R) (acc ++ [(k, v)]) := by
  have hE := parseEntry_roundtrip k v R hk hv
  rcases hd : k.data with _ | ⟨c0, k2⟩
  · rw [hd] at hE
    rw [List.nil_append] at hE
    rw [List.nil_append]
    rw [parseSectionLoop, if_neg (by decide), if_neg (by decide), if_neg (by decide)]
    rw [hE]
  · have hs := key_char_not_special c0 (hk c0 (by rw [hd]; exact List.mem_cons_self _ _))
    rw [hd] at hE
    rw [List.cons_append] at hE
    rw [List.cons_append]
    rw [parseSectionLoop, if_neg hs.1, if_neg (by simpa using hs.2.1),
      if_neg (by simp [hs.2.2])]
    rw [hE]

theorem parseSectionLoop_newline_step (fuel : Nat) (R : List Char)
    (acc : List (String × String)) :
    parseSectionLoop (fuel + 1) ('\n' :: R) acc = parseSectionLoop fuel R acc := by
  rw [parseSectionLoop, if_neg (by decide), if_neg (by decide), if_pos (by decide)]

theorem parseSectionLoop_roundtrip (es : List (String × EntryValue)) :
    ∀ (acc : List (String × String)) (rest : List Char) (fuel : Nat),
      (∀ kv ∈ es, wfKey kv.1 ∧ wfRaw kv.2.raw) →
      (rest = [] ∨ ∃ r2, rest = '[' :: r2) →
      ((es.map (fun kv => entryChars kv.1 kv.2)).flatten ++ '\n' :: rest).length < fuel →
      parseSectionLoop fuel ((es.map (fun kv => entryChars kv.1 kv.2)).flatten ++ '\n' :: rest) acc =
        .ok (acc ++ es.map (fun kv => (kv.1, kv.2.raw)), rest) := by
  induction es with
  | nil =>
    intro acc rest fuel _ hrest hfuel
    simp only [List.map_nil, List.flatten_nil, List.nil_append, List.length_cons] at hfuel ⊢
    obtain ⟨f, rfl⟩ : ∃ f, fuel = f + 1 := ⟨fuel - 1, by omega⟩
    rw [parseSectionLoop_newline_step]
    rcases hrest with rfl | ⟨r2, rfl⟩
    · match f with
      | 0 => simp [parseSectionLoop]
      | f2 + 1 => simp [parseSectionLoop]
    · simp only [List.length_cons] at hfuel
      obtain ⟨f2, rfl⟩ : ∃ f2, f = f2 + 1 := ⟨f - 1, by omega⟩
      rw [parseSectionLoop, if_neg (by decide), if_pos rfl]
      simp
  | cons kv es ih =>
    intro acc rest fuel hwf hrest hfuel
    have hshape : (((kv :: es).map (fun kv => entryChars kv.1 kv.2)).flatten ++ '\n' :: rest) =
        kv.1.data ++ '=' :: (kv.2.raw.data ++ '\n' ::
          ((es.map (fun kv => entryChars kv.1 kv.2)).flatten ++ '\n' :: rest)) := by
      simp [entryChars, List.append_assoc]
    rw [hshape] at hfuel ⊢
    simp only [List.length_append, List.length_cons] at hfuel
    obtain ⟨f, rfl⟩ : ∃ f, fuel = f + 1 := ⟨fuel - 1, by omega⟩
    rw [parseSectionLoop_entry_step f kv.1 kv.2.raw _ acc (hwf kv (by simp)).1 (hwf kv (by simp)).2]
    obtain ⟨f2, rfl⟩ : ∃ f2, f = f2 + 1 := ⟨f - 1, by omega⟩
    rw [parseSectionLoop_newline_step]
    rw [ih (acc ++ [(kv.1, kv.2.raw)]) rest f2 (fun x hx => hwf x (by simp [hx])) hrest
      (by simp only [List.length_append, List.length_cons]; omega)]
    simp

theorem sectionChars_append (s : String) (es : List (String × EntryValue)) (rest : List Char) :
    sectionChars s es ++ rest =
      '[' :: (s.data ++ ']' :: '\n' ::
        ((es.map (fun kv => entryChars kv.1 kv.2)).flatten ++ '\n' :: rest)) := by
  simp [sectionChars, List.append_assoc]

theorem parseSection_roundtrip (s : String) (es : List (String × EntryValue)) (rest : List Char)
    (hs : wfName s) (hwf : ∀ kv ∈ es, wfKey kv.1 ∧ wfRaw kv.2.raw)
    (hrest : rest = [] ∨ ∃ r2, rest = '[' :: r2) :
    parseSection ('[' :: (s.data ++ ']' :: '\n' ::
        ((es.map (fun kv => entryChars kv.1 kv.2)).flatten ++ '\n' :: rest))) =
      .ok ((s, es.map fun kv => (kv.1, kv.2.raw)), rest) := by
  unfold parseSection
  rw [parseSectionHeader_roundtrip s _ hs]
  simp only [List.length_cons]
  rw [parseSectionLoop_newline_step]
  rw [parseSectionLoop_roundtrip es [] rest _ hwf hrest (by omega)]
  simp

theorem has_section_append (A B : Doc) (x : String) :
    has_section (A ++ B) x = (has_section A x || has_section B x) := by
  induction A with
  | nil => simp [has_section]
  | cons se A ih => simp [has_section, ih, Bool.or_assoc]

theorem ensureSection_fresh (u : Doc) (s : String) (h : has_section u s = false) :
    ensureSection u s = u ++ [(s, [])] := by
  simp [ensureSection, h]

theorem append_entry_value_last (u : Doc) (s : String) (es : List (String × EntryValue))
    (k : String) (v : EntryValue) (h : has_section u s = false) :
    append_entry_value (u ++ [(s, es)]) s k v = u ++ [(s, es ++ [(k, v)])] := by
  induction u with
  | nil => simp [append_entry_value]
  | cons se u ih =>
    obtain ⟨s2, es2⟩ := se
    rw [has_section, Bool.or_eq_false_iff] at h
    have hs2 : ¬ s2 = s := by simpa using h.1
    rw [List.cons_append]
    rw [show append_entry_value ((s2, es2) :: (u ++ [(s, es)])) s k v =
        (if s2 = s then (s2, es2 ++ [(k, v)]) :: (u ++ [(s, es)])
         else (s2, es2) :: append_entry_value (u ++ [(s, es)]) s k v) from rfl]
    rw [if_neg hs2, ih h.2]
    rfl

theorem appendParsedEntries_ok (rawPairs : List (String × String)) :
    ∀ (u : Doc) (s : String) (done : List (String × EntryValue)),
      has_section u s = false →
      (∀ p ∈ rawPairs, (unquote_value p.2).isOk = true) →
      ∃ vs : List (String × EntryValue),
        appendParsedEntries (u ++ [(s, done)]) s rawPairs = .ok (u ++ [(s, done ++ vs)]) ∧
        vs.map (fun kv => (kv.1, kv.2.raw)) = rawPairs := by
  induction rawPairs with
  | nil =>
    intro u s done _ _
    exact ⟨[], by simp [appendParsedEntries], rfl⟩
  | cons p ps ih =>
    intro u s done hu hok
    obtain ⟨k, praw⟩ := p
    have hok1 := hok (k, praw) (by simp)
    obtain ⟨uq, huq⟩ : ∃ uq, unquote_value praw = .ok uq := by
      cases hv : unquote_value praw with
      | ok x => exact ⟨x, rfl⟩
      | error e => rw [hv] at hok1; simp [Except.isOk, Except.toBool] at hok1
    have htfr : EntryValue.try_from_raw praw = .ok ⟨praw, uq⟩ := by
      unfold EntryValue.try_from_raw
      rw [huq]
      rfl
    rw [appendParsedEntries, htfr]
    simp only
    rw [append_entry_value_last u s done k ⟨praw, uq⟩ hu]
    obtain ⟨vs, hvs, hmap⟩ := ih u s (done ++ [(k, ⟨praw, uq⟩)]) hu (fun q hq => hok q (by simp [hq]))
    refine ⟨(k, ⟨praw, uq⟩) :: vs, ?_, by simp [hmap]⟩
    rw [hvs]
    simp

theorem parseUnitLoop_roundtrip (d : Doc) :
    ∀ (u : Doc) (fuel : Nat),
      (∀ se ∈ d, wfName se.1 ∧ ∀ kv ∈ se.2, wfKey kv.1 ∧ wfRaw kv.2.raw) →
      (d.map (fun se => se.1)).Nodup →
      (∀ se ∈ d, has_section u se.1 = false) →
      ((d.map (fun se => sectionChars se.1 se.2)).flatten).length < fuel →
      ∃ D, parseUnitLoop fuel ((d.map (fun se => sectionChars se.1 se.2)).flatten) u = .ok D ∧
        eraseDoc D = eraseDoc u ++ eraseDoc d := by
  induction d with
  | nil =>
    intro u fuel _ _ _ hfuel
    refine ⟨u, ?_, by simp [eraseDoc]⟩
    obtain ⟨f, rfl⟩ : ∃ f, fuel = f + 1 := ⟨fuel - 1, by omega⟩
    simp [parseUnitLoop]
  | cons se d ih =>
    obtain ⟨s, es⟩ := se
    intro u fuel hwf hnd hfresh hfuel
    have hhead := hwf (s, es) (by simp)
    rw [List.map_cons, List.flatten_cons] at hfuel ⊢
    rw [sectionChars_append] at hfuel ⊢
    simp only [List.length_cons, List.length_append] at hfuel
    obtain ⟨f, rfl⟩ : ∃ f, fuel = f + 1 := ⟨fuel - 1, by omega⟩
    rw [parseUnitLoop, if_neg (by decide), if_pos rfl]
    have hrest : (d.map (fun se => sectionChars se.1 se.2)).flatten = [] ∨
        ∃ r2, (d.map (fun se => sectionChars se.1 se.2)).flatten = '[' :: r2 := by
      match d with
      | [] => exact Or.inl rfl
      | se2 :: d2 =>
        rw [List.map_cons, List.flatten_cons, sectionChars_append]
        exact Or.inr ⟨_, rfl⟩
    rw [parseSection_roundtrip s es _ hhead.1 hhead.2 hrest]
    simp only
    have hfreshs : has_section u s = false := hfresh (s, es) (by simp)
    have hisok : ∀ p ∈ es.map (fun kv => (kv.1, kv.2.raw)), (unquote_value p.2).isOk = true := by
      intro p hp
      obtain ⟨kv, hkv, rfl⟩ := List.mem_map.mp hp
      exact (hhead.2 kv hkv).2.2.2.2
    obtain ⟨vs, hvs, hmap⟩ := appendParsedEntries_ok (es.map (fun kv => (kv.1, kv.2.raw))) u s [] hfreshs hisok
    rw [ensureSection_fresh u s hfreshs, hvs]
    simp only [List.nil_append]
    rw [List.map_cons, List.nodup_cons] at hnd
    have hfresh2 : ∀ se2 ∈ d, has_section (u ++ [(s, vs)]) se2.1 = false := by
      intro se2 hse2
      rw [has_section_append]
      have h1 := hfresh se2 (by simp [hse2])
      have h2 : ¬ s = se2.1 := by
        intro hc
        exact hnd.1 (hc ▸ List.mem_map.mpr ⟨se2, hse2, rfl⟩)
      simp [h1, has_section, h2]
    obtain ⟨D, hD, herase⟩ := ih (u ++ [(s, vs)]) f (fun x hx => hwf x (by simp [hx])) hnd.2
      hfresh2 (by omega)
    refine ⟨D, hD, ?_⟩
    rw [herase]
    simp [eraseDoc, hmap]

theorem load_write (d : Doc) (h : wfDoc d) :
    ∃ D, load_from_str (write_to d) = .ok D ∧ eraseDoc D = eraseDoc d := by
  unfold load_from_str write_to
  rw [show (String.mk ((d.map (fun se => sectionChars se.1 se.2)).flatten)).data =
      (d.map (fun se => sectionChars se.1 se.2)).flatten from rfl]
  obtain ⟨D, hD, he⟩ := parseUnitLoop_roundtrip d []
    (((d.map (fun se => sectionChars se.1 se.2)).flatten).length + 1)
    h.2 h.1 (fun se _ => rfl) (by omega)
  rw [hD]
  exact ⟨D, rfl, by simpa [eraseDoc] using he⟩

theorem write_to_factor (D : Doc) :
    write_to D = String.mk (((eraseDoc D).map (fun p => sectionCharsE p.1 p.2)).flatten) := by
  unfold write_to eraseDoc
  rw [List.map_map]
  congr 2
  refine List.map_congr_left ?_
  intro se _
  unfold sectionChars sectionCharsE Function.comp
  simp only [List.map_map]
  congr 2

theorem write_to_eq_of_eraseDoc (D d : Doc) (h : eraseDoc D = eraseDoc d) :
    write_to D = write_to d := by
  rw [write_to_factor, write_to_factor, h]

/-- C2 (counterexample): a document holding the raw literal consisting of a
space followed by `a` (obtainable via `append_entry` with logical value
`" a"`, whose encoding keeps the leading space) serializes to `k= a`; the
parser then skips the whitespace after `=`, so re-parsing and re-serializing
yields `k=a` — not byte-identical to the first serialization. -/
theorem c2_counterexample :
    write_to [("S", [("k", EntryValue.from_unquoted " a")])] = "[S]\nk= a\n\n" ∧
    (load_from_str (write_to [("S", [("k", EntryValue.from_unquoted " a")])])).map write_to =
      .ok "[S]\nk=a\n\n" ∧
    ("[S]\nk=a\n\n" : String) ≠ "[S]\nk= a\n\n" := by
  refine ⟨by decide, ?_, by decide⟩
  decide

/-- C2 (amended): for every document whose section names are distinct,
nonempty and free of `]`/newline, whose keys consist of (ASCII)
alphanumerics or `-`, and whose raw literals contain no newline, do not
start with the space/tab skipped after `=`, keep every backslash followed
by a character, and decode successfully, serializing, parsing the result
and serializing again yields byte-identical text.  (Serialization emits
each value's stored raw literal; the restrictions are forced by documents
being richer than the grammar: e.g. a raw literal with a leading space is
not re-read byte-identically.) -/
theorem c2_serialize_parse_serialize (d : Doc) (h : wfDoc d) :
    (load_from_str (write_to d)).map write_to = .ok (write_to d) := by
  obtain ⟨D, hD, he⟩ := load_write d h
  rw [hD]
  show Except.ok (write_to D) = Except.ok (write_to d)
  rw [write_to_eq_of_eraseDoc D d he]

theorem c2_serialize_parse_serialize_witness :
    (load_from_str (write_to [("Service",
        [("ExecStart", EntryValue.from_unquoted "/bin/echo hi"),
         ("ExecStart", EntryValue.from_unquoted "")]),
      ("Install", [("WantedBy", EntryValue.from_unquoted "default.target")])])).map write_to =
      .ok (write_to [("Service",
        [("ExecStart", EntryValue.from_unquoted "/bin/echo hi"),
         ("ExecStart", EntryValue.from_unquoted "")]),
      ("Install", [("WantedBy", EntryValue.from_unquoted "default.target")])]) :=
  c2_serialize_parse_serialize _ (by decide)
